import Mathlib

/-!
# Verification of the Yandex-Market inventory synchroniser (`market.py`)

A shallow embedding of the reconciliation, price-building, pagination and
batching logic of `market.py`, together with proofs of the behavioural
properties stated in the specification.

Modelling conventions:
* Python dict records become Lean structures (`WatchRecord`, `StockUpdate`,
  `PriceUpdate`).
* The in-place mutation of the `offer_ids` list inside `create_stocks`
  (`offer_ids.remove(...)`) is made explicit: the Lean `create_stocks`
  returns both the produced stock list and the final state of `offer_ids`.
* `int(...)` on a quantity string may raise `ValueError` in Python, so the
  Lean functions that parse return `Option`: `none` models the raised
  exception (no value is returned to the caller).
* The current UTC timestamp computed at the top of `create_stocks` is an
  explicit parameter `date`.
-/

namespace Market

/-- A local inventory record ("watch remnant"): the fields `Код`
(code), `Количество` (quantity descriptor) and `Цена` (price string)
read by `market.py`. -/
structure WatchRecord where
  code : String
  quantity : String
  price : String
deriving DecidableEq, Repr

/-- One element of the `items` list of a stock update built by
`create_stocks`. -/
structure StockItem where
  count : Int
  type : String
  updatedAt : String
deriving DecidableEq, Repr

/-- A stock update dict as built by `create_stocks`. -/
structure StockUpdate where
  sku : String
  warehouseId : String
  items : List StockItem
deriving DecidableEq, Repr

/-- One decimal digit of a quantity or price string. -/
def pyDigit (c : Char) : Option Nat :=
  if 48 ≤ c.toNat ∧ c.toNat ≤ 57 then some (c.toNat - 48) else none

/-- Accumulates a decimal number over a list of characters; any
non-digit character makes the whole parse fail. -/
def pyNatAux (n : Nat) : List Char → Option Nat
  | [] => some n
  | c :: cs =>
    match pyDigit c with
    | some d => pyNatAux (n * 10 + d) cs
    | none => none

/-- Python `int(...)` applied to a string: an optional minus sign
followed by at least one decimal digit; anything else raises
`ValueError`, modelled as `none`. -/
def pyInt (s : String) : Option Int :=
  match s.data with
  | [] => none
  | c :: cs =>
    if c = '-' then
      match cs with
      | [] => none
      | _ :: _ => (pyNatAux 0 cs).map (fun n => -(n : Int))
    else (pyNatAux 0 (c :: cs)).map (fun n => (n : Int))

/-- The quantity-descriptor-to-count mapping of `create_stocks`
(lines 235-241): `">10"` maps to `100`, `"1"` maps to `0`, anything else
is parsed with `int(...)`; a failed parse is a raised `ValueError`,
modelled as `none`. -/
def stockCount (q : String) : Option Int :=
  if q = ">10" then some 100
  else if q = "1" then some 0
  else pyInt q

/-- Phase 1 of `create_stocks` (the `for watch in watch_remnants` loop):
walks the inventory records; a record whose code is in the working set
emits a stock update and removes the code (Python `list.remove`, i.e.
remove the first occurrence).  Returns the emitted updates in order
together with the final state of `offer_ids`; `none` models a raised
`ValueError` from `int(...)`. -/
def createStocksLoop (remnants : List WatchRecord) (offer_ids : List String)
    (warehouse_id date : String) : Option (List StockUpdate × List String) :=
  match remnants with
  | [] => some ([], offer_ids)
  | watch :: rest =>
    if watch.code ∈ offer_ids then
      match stockCount watch.quantity with
      | none => none
      | some c =>
        match createStocksLoop rest (offer_ids.erase watch.code) warehouse_id date with
        | none => none
        | some (us, remaining) =>
          some (⟨watch.code, warehouse_id, [⟨c, "FIT", date⟩]⟩ :: us, remaining)
    else createStocksLoop rest offer_ids warehouse_id date

/-- The zero-count stock update emitted by phase 2 of `create_stocks`
(lines 257-270) for an offer id with no matching inventory record. -/
def zeroStock (warehouse_id date id : String) : StockUpdate :=
  ⟨id, warehouse_id, [⟨0, "FIT", date⟩]⟩

/-- `create_stocks` (lines 195-271): phase 1 over the inventory records,
then phase 2 appending a zero-count update for every offer id still in
the working set.  The second component of the result is the final state
of the (mutated) `offer_ids` argument. -/
def create_stocks (remnants : List WatchRecord) (offer_ids : List String)
    (warehouse_id date : String) : Option (List StockUpdate × List String) :=
  (createStocksLoop remnants offer_ids warehouse_id date).map fun p =>
    (p.1 ++ p.2.map (zeroStock warehouse_id date), p.2)

@[simp] theorem sku_zeroStock (w d id : String) :
    (zeroStock w d id).sku = id := rfl

/-- The `count` field of a stock update's first item, as read by
`upload_stocks` (`stock.get("items")[0].get("count")`). -/
def updateCount (u : StockUpdate) : Option Int :=
  (u.items.head?).map StockItem.count

/-! ## Basic lemmas about `createStocksLoop` -/

/-- The skus emitted by phase 1 together with the leftover working set
are a permutation of the initial working set. -/
theorem createStocksLoop_perm (remnants : List WatchRecord)
    (offer_ids : List String) (w d : String) (us : List StockUpdate)
    (rem : List String)
    (h : createStocksLoop remnants offer_ids w d = some (us, rem)) :
    (us.map StockUpdate.sku ++ rem).Perm offer_ids := by
  induction remnants generalizing offer_ids us rem with
  | nil =>
    simp only [createStocksLoop, Option.some.injEq, Prod.mk.injEq] at h
    simp [← h.1, ← h.2]
  | cons watch rest ih =>
    simp only [createStocksLoop] at h
    by_cases hmem : watch.code ∈ offer_ids
    · rw [if_pos hmem] at h
      cases hc : stockCount watch.quantity with
      | none => simp [hc] at h
      | some c =>
        simp only [hc] at h
        cases hrec : createStocksLoop rest (offer_ids.erase watch.code) w d with
        | none => simp [hrec] at h
        | some p =>
          obtain ⟨us', rem'⟩ := p
          simp only [hrec, Option.some.injEq, Prod.mk.injEq] at h
          obtain ⟨h1, h2⟩ := h
          rw [← h2, ← h1]
          have hperm := ih (offer_ids.erase watch.code) us' rem' hrec
          have hfull := (hperm.cons watch.code).trans (List.perm_cons_erase hmem).symm
          simpa using hfull
    · rw [if_neg hmem] at h
      exact ih offer_ids us rem h

/-- C1: for a duplicate-free remote offer id list, `create_stocks` returns
one stock update per offer id: the result length equals the length of
`offer_ids` and the skus of the result are a permutation of `offer_ids`
(every id exactly once, no duplicates, no omissions). -/
theorem create_stocks_covers_offer_ids (remnants : List WatchRecord)
    (offer_ids : List String) (w d : String) (s : List StockUpdate)
    (rem : List String) (hnd : offer_ids.Nodup)
    (h : create_stocks remnants offer_ids w d = some (s, rem)) :
    s.length = offer_ids.length ∧ (s.map StockUpdate.sku).Perm offer_ids := by
  simp only [create_stocks, Option.map_eq_some'] at h
  obtain ⟨⟨us, rem'⟩, hloop, heq⟩ := h
  simp only [Prod.mk.injEq] at heq
  obtain ⟨hs, hrem⟩ := heq
  subst hs
  have hperm := createStocksLoop_perm remnants offer_ids w d us rem' hloop
  have hskus : (us ++ rem'.map (zeroStock w d)).map StockUpdate.sku
      = us.map StockUpdate.sku ++ rem' := by
    simp [List.map_map, Function.comp_def]
  constructor
  · have hlen := hperm.length_eq
    simp only [List.length_append, List.length_map] at hlen ⊢
    omega
  · rw [hskus]; exact hperm

theorem create_stocks_covers_offer_ids_witness :
    ["A", "B"].Nodup ∧
    create_stocks [⟨"A", ">10", "5990"⟩] ["A", "B"] "w" "d" =
      some ([⟨"A", "w", [⟨100, "FIT", "d"⟩]⟩, ⟨"B", "w", [⟨0, "FIT", "d"⟩]⟩], ["B"]) ∧
    ([⟨"A", "w", [⟨100, "FIT", "d"⟩]⟩, ⟨"B", "w", [⟨0, "FIT", "d"⟩]⟩] :
        List StockUpdate).length = (["A", "B"] : List String).length ∧
    (([⟨"A", "w", [⟨100, "FIT", "d"⟩]⟩, ⟨"B", "w", [⟨0, "FIT", "d"⟩]⟩] :
        List StockUpdate).map StockUpdate.sku).Perm ["A", "B"] :=
  ⟨by decide, by decide,
    create_stocks_covers_offer_ids [⟨"A", ">10", "5990"⟩] ["A", "B"] "w" "d"
      [⟨"A", "w", [⟨100, "FIT", "d"⟩]⟩, ⟨"B", "w", [⟨0, "FIT", "d"⟩]⟩] ["B"]
      (by decide) (by decide)⟩

/-- Every update emitted by phase 1 comes from an inventory record whose
code is its sku, with the count given by `stockCount`. -/
theorem createStocksLoop_mem_origin (remnants : List WatchRecord)
    (offer_ids : List String) (w d : String) (us : List StockUpdate)
    (rem : List String)
    (h : createStocksLoop remnants offer_ids w d = some (us, rem)) :
    ∀ u ∈ us, ∃ r ∈ remnants, r.code = u.sku ∧
      ∃ c, stockCount r.quantity = some c ∧
        u = ⟨r.code, w, [⟨c, "FIT", d⟩]⟩ := by
  induction remnants generalizing offer_ids us rem with
  | nil =>
    simp only [createStocksLoop, Option.some.injEq, Prod.mk.injEq] at h
    intro u hu
    rw [← h.1] at hu
    exact absurd hu (List.not_mem_nil u)
  | cons watch rest ih =>
    simp only [createStocksLoop] at h
    by_cases hmem : watch.code ∈ offer_ids
    · rw [if_pos hmem] at h
      cases hc : stockCount watch.quantity with
      | none => simp [hc] at h
      | some c =>
        simp only [hc] at h
        cases hrec : createStocksLoop rest (offer_ids.erase watch.code) w d with
        | none => simp [hrec] at h
        | some p =>
          obtain ⟨us', rem'⟩ := p
          simp only [hrec, Option.some.injEq, Prod.mk.injEq] at h
          obtain ⟨h1, h2⟩ := h
          intro u hu
          rw [← h1] at hu
          rcases List.mem_cons.mp hu with hhead | htail
          · exact ⟨watch, List.mem_cons_self watch rest,
              by rw [hhead], c, hc, by rw [hhead]⟩
          · obtain ⟨r, hr, hcode, c', hc', hu'⟩ :=
              ih (offer_ids.erase watch.code) us' rem' hrec u htail
            exact ⟨r, List.mem_cons_of_mem watch hr, hcode, c', hc', hu'⟩
    · rw [if_neg hmem] at h
      intro u hu
      obtain ⟨r, hr, hcode, c', hc', hu'⟩ := ih offer_ids us rem h u hu
      exact ⟨r, List.mem_cons_of_mem watch hr, hcode, c', hc', hu'⟩

/-- When the working set is duplicate-free, every id left in it after
phase 1 is an original id that no inventory record matches. -/
theorem createStocksLoop_rem_unmatched (remnants : List WatchRecord)
    (offer_ids : List String) (w d : String) (us : List StockUpdate)
    (rem : List String) (hnd : offer_ids.Nodup)
    (h : createStocksLoop remnants offer_ids w d = some (us, rem)) :
    ∀ id ∈ rem, id ∈ offer_ids ∧ ∀ r ∈ remnants, r.code ≠ id := by
  induction remnants generalizing offer_ids us rem with
  | nil =>
    simp only [createStocksLoop, Option.some.injEq, Prod.mk.injEq] at h
    intro id hid
    rw [← h.2] at hid
    exact ⟨hid, by intro r hr; exact absurd hr (List.not_mem_nil r)⟩
  | cons watch rest ih =>
    simp only [createStocksLoop] at h
    by_cases hmem : watch.code ∈ offer_ids
    · rw [if_pos hmem] at h
      cases hc : stockCount watch.quantity with
      | none => simp [hc] at h
      | some c =>
        simp only [hc] at h
        cases hrec : createStocksLoop rest (offer_ids.erase watch.code) w d with
        | none => simp [hrec] at h
        | some p =>
          obtain ⟨us', rem'⟩ := p
          simp only [hrec, Option.some.injEq, Prod.mk.injEq] at h
          obtain ⟨h1, h2⟩ := h
          intro id hid
          rw [← h2] at hid
          obtain ⟨hin, hrest⟩ := ih (offer_ids.erase watch.code) us' rem'
            (hnd.erase watch.code) hrec id hid
          have hne : id ≠ watch.code := ((hnd.mem_erase_iff).mp hin).1
          refine ⟨List.mem_of_mem_erase hin, ?_⟩
          intro r hr
          rcases List.mem_cons.mp hr with hhead | htail
          · rw [hhead]; exact fun hcontra => hne hcontra.symm
          · exact hrest r htail
    · rw [if_neg hmem] at h
      intro id hid
      obtain ⟨hin, hrest⟩ := ih offer_ids us rem hnd h id hid
      refine ⟨hin, ?_⟩
      intro r hr
      rcases List.mem_cons.mp hr with hhead | htail
      · rw [hhead]
        intro hcontra
        exact hmem (hcontra ▸ hin)
      · exact hrest r htail

/-- C2 (amended: `offer_ids` duplicate-free): every stock update built by
`create_stocks` either comes from a matching inventory record and carries
the `stockCount` of that record's quantity descriptor (100 for `">10"`,
0 for `"1"`, the parsed integer otherwise), or carries count 0 and its
sku has no matching inventory record. -/
theorem create_stocks_count_rule (remnants : List WatchRecord)
    (offer_ids : List String) (w d : String) (s : List StockUpdate)
    (rem : List String) (hnd : offer_ids.Nodup)
    (h : create_stocks remnants offer_ids w d = some (s, rem)) :
    stockCount ">10" = some 100 ∧ stockCount "1" = some 0 ∧
    (∀ q, q ≠ ">10" → q ≠ "1" → stockCount q = pyInt q) ∧
    ∀ u ∈ s,
      (∃ r ∈ remnants, r.code = u.sku ∧ updateCount u = stockCount r.quantity) ∨
      ((∀ r ∈ remnants, r.code ≠ u.sku) ∧ updateCount u = some 0) := by
  refine ⟨rfl, rfl, ?_, ?_⟩
  · intro q h1 h2
    simp [stockCount, h1, h2]
  · simp only [create_stocks, Option.map_eq_some'] at h
    obtain ⟨⟨us, rem'⟩, hloop, heq⟩ := h
    simp only [Prod.mk.injEq] at heq
    obtain ⟨hs, hrem⟩ := heq
    subst hs
    intro u hu
    rcases List.mem_append.mp hu with hu1 | hu2
    · obtain ⟨r, hr, hcode, c, hc, hueq⟩ :=
        createStocksLoop_mem_origin remnants offer_ids w d us rem' hloop u hu1
      left
      refine ⟨r, hr, hcode, ?_⟩
      rw [hueq, hcode, hc]
      rfl
    · obtain ⟨id, hid, hueq⟩ := List.mem_map.mp hu2
      obtain ⟨hin, hnomatch⟩ :=
        createStocksLoop_rem_unmatched remnants offer_ids w d us rem' hnd hloop id hid
      right
      constructor
      · intro r hr
        rw [← hueq]
        exact hnomatch r hr
      · rw [← hueq]
        rfl

theorem create_stocks_count_rule_witness :
    (["A", "B", "C"] : List String).Nodup ∧
    create_stocks [⟨"A", ">10", "p"⟩, ⟨"B", "7", "p"⟩] ["A", "B", "C"] "w" "d" =
      some ([⟨"A", "w", [⟨100, "FIT", "d"⟩]⟩, ⟨"B", "w", [⟨7, "FIT", "d"⟩]⟩,
             ⟨"C", "w", [⟨0, "FIT", "d"⟩]⟩], ["C"]) ∧
    (∀ u ∈ ([⟨"A", "w", [⟨100, "FIT", "d"⟩]⟩, ⟨"B", "w", [⟨7, "FIT", "d"⟩]⟩,
             ⟨"C", "w", [⟨0, "FIT", "d"⟩]⟩] : List StockUpdate),
      (∃ r ∈ [(⟨"A", ">10", "p"⟩ : WatchRecord), ⟨"B", "7", "p"⟩],
          r.code = u.sku ∧ updateCount u = stockCount r.quantity) ∨
      ((∀ r ∈ [(⟨"A", ">10", "p"⟩ : WatchRecord), ⟨"B", "7", "p"⟩],
          r.code ≠ u.sku) ∧ updateCount u = some 0)) :=
  ⟨by decide, by decide,
    (create_stocks_count_rule [⟨"A", ">10", "p"⟩, ⟨"B", "7", "p"⟩] ["A", "B", "C"]
      "w" "d"
      [⟨"A", "w", [⟨100, "FIT", "d"⟩]⟩, ⟨"B", "w", [⟨7, "FIT", "d"⟩]⟩,
       ⟨"C", "w", [⟨0, "FIT", "d"⟩]⟩] ["C"] (by decide) (by decide)).2.2.2⟩

/-- C2 as stated is false when `offer_ids` contains a duplicate: with one
record `("A", "7")` and `offer_ids = ["A", "A"]`, the second produced
update for sku `"A"` has count 0, although `"A"` has a matching record
whose descriptor parses to 7 (and is neither `">10"` nor `"1"`). -/
theorem create_stocks_count_rule_cex :
    create_stocks [⟨"A", "7", "p"⟩] ["A", "A"] "w" "d" =
      some ([⟨"A", "w", [⟨7, "FIT", "d"⟩]⟩, ⟨"A", "w", [⟨0, "FIT", "d"⟩]⟩], ["A"]) ∧
    ¬ ((∃ r ∈ [(⟨"A", "7", "p"⟩ : WatchRecord)],
          r.code = StockUpdate.sku ⟨"A", "w", [⟨0, "FIT", "d"⟩]⟩ ∧
          updateCount ⟨"A", "w", [⟨0, "FIT", "d"⟩]⟩ = stockCount r.quantity) ∨
        ((∀ r ∈ [(⟨"A", "7", "p"⟩ : WatchRecord)],
            r.code ≠ StockUpdate.sku ⟨"A", "w", [⟨0, "FIT", "d"⟩]⟩) ∧
          updateCount ⟨"A", "w", [⟨0, "FIT", "d"⟩]⟩ = some 0)) := by
  constructor
  · decide
  · decide

/-- With a duplicate-free working set, phase 1 leaves in the working set
exactly the offer ids that no inventory record matches, in their
original order. -/
theorem createStocksLoop_rem_eq_filter (remnants : List WatchRecord)
    (offer_ids : List String) (w d : String) (us : List StockUpdate)
    (rem : List String) (hnd : offer_ids.Nodup)
    (h : createStocksLoop remnants offer_ids w d = some (us, rem)) :
    rem = offer_ids.filter
      (fun id => !(remnants.any (fun r => r.code == id))) := by
  induction remnants generalizing offer_ids us rem with
  | nil =>
    simp only [createStocksLoop, Option.some.injEq, Prod.mk.injEq] at h
    simp [← h.2]
  | cons watch rest ih =>
    simp only [createStocksLoop] at h
    by_cases hmem : watch.code ∈ offer_ids
    · rw [if_pos hmem] at h
      cases hc : stockCount watch.quantity with
      | none => simp [hc] at h
      | some c =>
        simp only [hc] at h
        cases hrec : createStocksLoop rest (offer_ids.erase watch.code) w d with
        | none => simp [hrec] at h
        | some p =>
          obtain ⟨us', rem'⟩ := p
          simp only [hrec, Option.some.injEq, Prod.mk.injEq] at h
          obtain ⟨h1, h2⟩ := h
          rw [← h2]
          rw [ih (offer_ids.erase watch.code) us' rem' (hnd.erase watch.code) hrec]
          rw [hnd.erase_eq_filter watch.code, List.filter_filter]
          apply List.filter_congr
          intro id hid
          by_cases hxy : watch.code = id
          · simp [hxy]
          · have hb1 : (id != watch.code) = true := bne_iff_ne.mpr (Ne.symm hxy)
            have hb2 : (watch.code == id) = false := by
              simp [hxy]
            simp [hb1, hb2]
    · rw [if_neg hmem] at h
      rw [ih offer_ids us rem hnd h]
      apply List.filter_congr
      intro id hid
      have hne : watch.code ≠ id := fun hcontra => hmem (hcontra ▸ hid)
      simp [beq_iff_eq, hne]

/-- C9 (amended: `offer_ids` duplicate-free): `create_stocks` consumes
its working set in place: the final state of `offer_ids` is exactly the
original ids with no matching inventory record (every matched code has
been removed). -/
theorem create_stocks_consumes_working_set (remnants : List WatchRecord)
    (offer_ids : List String) (w d : String) (s : List StockUpdate)
    (rem : List String) (hnd : offer_ids.Nodup)
    (h : create_stocks remnants offer_ids w d = some (s, rem)) :
    rem = offer_ids.filter
      (fun id => !(remnants.any (fun r => r.code == id))) ∧
    ∀ id, id ∈ rem ↔
      (id ∈ offer_ids ∧ ∀ r ∈ remnants, r.code ≠ id) := by
  simp only [create_stocks, Option.map_eq_some'] at h
  obtain ⟨⟨us, rem'⟩, hloop, heq⟩ := h
  simp only [Prod.mk.injEq] at heq
  obtain ⟨hs, hrem⟩ := heq
  rw [← hrem]
  have hfilter := createStocksLoop_rem_eq_filter remnants offer_ids w d us rem' hnd hloop
  refine ⟨hfilter, ?_⟩
  intro id
  rw [hfilter, List.mem_filter]
  simp [List.any_eq_true]

theorem create_stocks_consumes_working_set_witness :
    (["A", "B"] : List String).Nodup ∧
    create_stocks [⟨"A", "3", "p"⟩] ["A", "B"] "w" "d" =
      some ([⟨"A", "w", [⟨3, "FIT", "d"⟩]⟩, ⟨"B", "w", [⟨0, "FIT", "d"⟩]⟩], ["B"]) ∧
    (["B"] : List String) = (["A", "B"] : List String).filter
      (fun id => !([(⟨"A", "3", "p"⟩ : WatchRecord)].any (fun r => r.code == id))) :=
  ⟨by decide, by decide,
    (create_stocks_consumes_working_set [⟨"A", "3", "p"⟩] ["A", "B"] "w" "d"
      [⟨"A", "w", [⟨3, "FIT", "d"⟩]⟩, ⟨"B", "w", [⟨0, "FIT", "d"⟩]⟩] ["B"]
      (by decide) (by decide)).1⟩

/-- C9 as stated is false when `offer_ids` contains a duplicate: with one
record `("A", "5")` and `offer_ids = ["A", "A"]`, the working set after
the call still contains `"A"`, although `"A"` has a matching inventory
record. -/
theorem create_stocks_consumes_working_set_cex :
    create_stocks [⟨"A", "5", "p"⟩] ["A", "A"] "w" "d" =
      some ([⟨"A", "w", [⟨5, "FIT", "d"⟩]⟩, ⟨"A", "w", [⟨0, "FIT", "d"⟩]⟩], ["A"]) ∧
    ¬ ((["A"] : List String) = (["A", "A"] : List String).filter
        (fun id => !([(⟨"A", "5", "p"⟩ : WatchRecord)].any (fun r => r.code == id)))) :=
  ⟨by decide, by decide⟩

/-- Erases the `updatedAt` timestamp of a stock update, leaving every
other field intact. -/
def stripTime (u : StockUpdate) : StockUpdate :=
  ⟨u.sku, u.warehouseId, u.items.map fun i => ⟨i.count, i.type, ""⟩⟩

/-- Phase 1 is deterministic: two runs over the same records and the
same working set differ at most in the timestamp written into each
update. -/
theorem createStocksLoop_time_invariant (remnants : List WatchRecord)
    (offer_ids : List String) (w d1 d2 : String) :
    (createStocksLoop remnants offer_ids w d1).map
        (fun p => (p.1.map stripTime, p.2)) =
    (createStocksLoop remnants offer_ids w d2).map
        (fun p => (p.1.map stripTime, p.2)) := by
  induction remnants generalizing offer_ids with
  | nil => rfl
  | cons watch rest ih =>
    simp only [createStocksLoop]
    by_cases hmem : watch.code ∈ offer_ids
    · rw [if_pos hmem, if_pos hmem]
      cases stockCount watch.quantity with
      | none => rfl
      | some c =>
        have hih := ih (offer_ids.erase watch.code)
        cases h1 : createStocksLoop rest (offer_ids.erase watch.code) w d1 with
        | none =>
          rw [h1] at hih
          have h2 : createStocksLoop rest (offer_ids.erase watch.code) w d2 = none :=
            Option.map_eq_none'.mp hih.symm
          rw [h2]
        | some p1 =>
          rw [h1] at hih
          cases h2 : createStocksLoop rest (offer_ids.erase watch.code) w d2 with
          | none =>
            rw [h2] at hih
            simp at hih
          | some p2 =>
            rw [h2] at hih
            simp only [Option.map_some', Option.some.injEq, Prod.mk.injEq] at hih
            obtain ⟨hmap, hsnd⟩ := hih
            obtain ⟨us1, rem1⟩ := p1
            obtain ⟨us2, rem2⟩ := p2
            simp only [Option.map_some', Option.some.injEq, Prod.mk.injEq,
              List.map_cons]
            exact ⟨by rw [hmap]; rfl, hsnd⟩
    · rw [if_neg hmem, if_neg hmem]
      exact ih offer_ids

/-- C4: re-running `create_stocks` on the same inventory list and the
same offer id list yields the same stock list and the same final
working set, with only the `updatedAt` timestamp allowed to differ
between the two runs. -/
theorem create_stocks_idempotent (remnants : List WatchRecord)
    (offer_ids : List String) (w d1 d2 : String) :
    (create_stocks remnants offer_ids w d1).map
        (fun p => (p.1.map stripTime, p.2)) =
    (create_stocks remnants offer_ids w d2).map
        (fun p => (p.1.map stripTime, p.2)) := by
  have key := createStocksLoop_time_invariant remnants offer_ids w d1 d2
  simp only [create_stocks]
  cases h1 : createStocksLoop remnants offer_ids w d1 with
  | none =>
    rw [h1] at key
    have h2 : createStocksLoop remnants offer_ids w d2 = none :=
      Option.map_eq_none'.mp key.symm
    rw [h2]
    simp
  | some p1 =>
    rw [h1] at key
    cases h2 : createStocksLoop remnants offer_ids w d2 with
    | none =>
      rw [h2] at key
      simp at key
    | some p2 =>
      rw [h2] at key
      simp only [Option.map_some', Option.some.injEq, Prod.mk.injEq] at key
      obtain ⟨hmap, hsnd⟩ := key
      simp only [Option.map_some', Option.some.injEq, Prod.mk.injEq,
        List.map_append, List.map_map]
      refine ⟨?_, hsnd⟩
      rw [hmap, hsnd]
      have hz : List.map (stripTime ∘ zeroStock w d1) p2.2
          = List.map (stripTime ∘ zeroStock w d2) p2.2 :=
        List.map_congr_left fun id hid => rfl
      rw [hz]

/-! ## Price building -/

/-- The `price` object of a price update built by `create_prices`. -/
structure PriceBody where
  value : Int
  currencyId : String
deriving DecidableEq, Repr

/-- A price update dict as built by `create_prices`. -/
structure PriceUpdate where
  id : String
  price : PriceBody
deriving DecidableEq, Repr

/-- Modelled from the spec: `price_conversion` is defined in `seller.py`,
which is not under `src/`.  Spec §4.3: the conversion discards everything
from a decimal separator onward, then strips non-digit grouping
characters (example: `"1 990.00 руб."` becomes `"1990"`). -/
def price_conversion (price : String) : String :=
  ⟨(price.data.takeWhile (fun c => c ≠ '.')).filter
    (fun c => (pyDigit c).isSome)⟩

/-- `create_prices` (lines 274-325): one price update per inventory
record whose code is in `offer_ids`, keyed by the record's code, with
value `int(price_conversion(...))` and currency `"RUR"`; `offer_ids` is
not mutated.  `none` models a raised `ValueError`. -/
def create_prices (remnants : List WatchRecord) (offer_ids : List String) :
    Option (List PriceUpdate) :=
  match remnants with
  | [] => some []
  | watch :: rest =>
    if watch.code ∈ offer_ids then
      match pyInt (price_conversion watch.price) with
      | none => none
      | some v =>
        (create_prices rest offer_ids).map
          (fun ps => ⟨watch.code, ⟨v, "RUR"⟩⟩ :: ps)
    else create_prices rest offer_ids

/-- C5: every price update built by `create_prices` has an id that is
both a member of `offer_ids` and the code of some inventory record; ids
without a matching record are silently skipped, never synthesized. -/
theorem create_prices_subset (remnants : List WatchRecord)
    (offer_ids : List String) (ps : List PriceUpdate)
    (h : create_prices remnants offer_ids = some ps) :
    ∀ p ∈ ps, p.id ∈ offer_ids ∧ ∃ r ∈ remnants, r.code = p.id := by
  induction remnants generalizing ps with
  | nil =>
    simp only [create_prices, Option.some.injEq] at h
    intro p hp
    rw [← h] at hp
    exact absurd hp (List.not_mem_nil p)
  | cons watch rest ih =>
    simp only [create_prices] at h
    by_cases hmem : watch.code ∈ offer_ids
    · rw [if_pos hmem] at h
      cases hv : pyInt (price_conversion watch.price) with
      | none => simp [hv] at h
      | some v =>
        simp only [hv, Option.map_eq_some'] at h
        obtain ⟨ps', hps', heq⟩ := h
        intro p hp
        rw [← heq] at hp
        rcases List.mem_cons.mp hp with hhead | htail
        · subst hhead
          exact ⟨hmem, watch, List.mem_cons_self watch rest, rfl⟩
        · obtain ⟨hin, r, hr, hcode⟩ := ih ps' hps' p htail
          exact ⟨hin, r, List.mem_cons_of_mem watch hr, hcode⟩
    · rw [if_neg hmem] at h
      intro p hp
      obtain ⟨hin, r, hr, hcode⟩ := ih ps h p hp
      exact ⟨hin, r, List.mem_cons_of_mem watch hr, hcode⟩

theorem create_prices_subset_witness :
    create_prices [⟨"A", ">10", "1 990.00 руб."⟩, ⟨"Z", "2", "5"⟩] ["A", "B"] =
      some [⟨"A", ⟨1990, "RUR"⟩⟩] ∧
    ∀ p ∈ ([⟨"A", ⟨1990, "RUR"⟩⟩] : List PriceUpdate),
      p.id ∈ (["A", "B"] : List String) ∧
      ∃ r ∈ [(⟨"A", ">10", "1 990.00 руб."⟩ : WatchRecord), ⟨"Z", "2", "5"⟩],
        r.code = p.id :=
  ⟨by decide,
    create_prices_subset [⟨"A", ">10", "1 990.00 руб."⟩, ⟨"Z", "2", "5"⟩]
      ["A", "B"] [⟨"A", ⟨1990, "RUR"⟩⟩] (by decide)⟩

/-! ## Batching -/

/-- Recursion core of `divide`: peels off `n` elements at a time; the
fuel argument (instantiated with the input length) only makes the
recursion structural and never runs out when `0 < n`. -/
def divideGo (n : Nat) : Nat → List α → List (List α)
  | 0, _ => []
  | _ + 1, [] => []
  | fuel + 1, a :: as =>
    (a :: as).take n :: divideGo n fuel ((a :: as).drop n)

/-- Modelled from the spec: `divide` is defined in `seller.py`, which is
not under `src/`.  Spec §4.4 (Batcher): given a sequence and a maximum
chunk size, produces contiguous slices each of length at most the
maximum, consuming the full input in order, last chunk possibly
shorter.  The program only uses it with sizes 2000 and 500; the
`n = 0` guard is unreachable there. -/
def divide (l : List α) (n : Nat) : List (List α) :=
  if n = 0 then [] else divideGo n l.length l

theorem divideGo_nil (n fuel : Nat) : divideGo n fuel ([] : List α) = [] := by
  cases fuel <;> rfl

theorem divideGo_flatten (n : Nat) (hn : 0 < n) :
    ∀ (fuel : Nat) (l : List α), l.length ≤ fuel →
      (divideGo n fuel l).flatten = l := by
  intro fuel
  induction fuel with
  | zero =>
    intro l hl
    rw [List.length_eq_zero.mp (Nat.le_zero.mp hl)]
    rfl
  | succ fuel ih =>
    intro l hl
    cases l with
    | nil => rfl
    | cons a as =>
      have hdrop : ((a :: as).drop n).length ≤ fuel := by
        simp only [List.length_drop, List.length_cons] at *
        omega
      simp only [divideGo, List.flatten_cons, ih _ hdrop]
      exact List.take_append_drop n (a :: as)

theorem divideGo_chunk_bounds (n : Nat) (hn : 0 < n) :
    ∀ (fuel : Nat) (l : List α), l.length ≤ fuel →
      ∀ c ∈ divideGo n fuel l, c.length ≤ n ∧ c ≠ [] := by
  intro fuel
  induction fuel with
  | zero =>
    intro l hl c hc
    rw [List.length_eq_zero.mp (Nat.le_zero.mp hl)] at hc
    exact absurd hc (by simp [divideGo])
  | succ fuel ih =>
    intro l hl
    cases l with
    | nil => intro c hc; exact absurd hc (by simp [divideGo])
    | cons a as =>
      intro c hc
      have hdrop : ((a :: as).drop n).length ≤ fuel := by
        simp only [List.length_drop, List.length_cons] at *
        omega
      simp only [divideGo, List.mem_cons] at hc
      rcases hc with hc | hc
      · subst hc
        constructor
        · simp [List.length_take]
        · intro hnil
          rcases List.take_eq_nil_iff.mp hnil with h0 | h0
          · omega
          · exact List.noConfusion h0
      · exact ih _ hdrop c hc

theorem divideGo_dropLast_full (n : Nat) (hn : 0 < n) :
    ∀ (fuel : Nat) (l : List α), l.length ≤ fuel →
      ∀ c ∈ (divideGo n fuel l).dropLast, c.length = n := by
  intro fuel
  induction fuel with
  | zero =>
    intro l hl c hc
    rw [List.length_eq_zero.mp (Nat.le_zero.mp hl)] at hc
    exact absurd hc (by simp [divideGo])
  | succ fuel ih =>
    intro l hl
    cases l with
    | nil => intro c hc; exact absurd hc (by simp [divideGo])
    | cons a as =>
      intro c hc
      have hdrop : ((a :: as).drop n).length ≤ fuel := by
        simp only [List.length_drop, List.length_cons] at *
        omega
      simp only [divideGo] at hc
      cases hrest : divideGo n fuel ((a :: as).drop n) with
      | nil => rw [hrest] at hc; exact absurd hc (by simp)
      | cons r rs =>
        rw [hrest, List.dropLast_cons₂, List.mem_cons] at hc
        have hne : (a :: as).drop n ≠ [] := by
          intro hcontra
          rw [hcontra, divideGo_nil] at hrest
          exact List.noConfusion hrest
        have hlen : n < (a :: as).length := by
          by_contra hge
          exact hne (List.drop_eq_nil_iff.mpr (by omega))
        rcases hc with hc | hc
        · subst hc
          simp only [List.length_take]
          omega
        · rw [← hrest] at hc
          exact ih _ hdrop c hc

/-- C6: `divide` is a total partition: for every positive maximum chunk
size, the concatenation of the chunks reproduces the input in original
order, every chunk has length at most the maximum and is non-empty, all
chunks except possibly the last are full, and 4500 elements at maximum
2000 split into sizes 2000, 2000, 500. -/
theorem divideGo_step (n fuel : Nat) (l : List α) (hl : l ≠ []) :
    divideGo n (fuel + 1) l = l.take n :: divideGo n fuel (l.drop n) := by
  cases l with
  | nil => exact absurd rfl hl
  | cons a as => rfl

theorem divide_replicate_4500 :
    (divide (List.replicate 4500 (0 : Nat)) 2000).map List.length =
      [2000, 2000, 500] := by
  have hne : ∀ m : Nat, 0 < m → (List.replicate m (0 : Nat)) ≠ [] := by
    intro m hm
    exact List.ne_nil_of_length_pos (by simpa using hm)
  rw [divide, if_neg (by omega)]
  rw [List.length_replicate]
  rw [show (4500 : Nat) = 4499 + 1 from rfl,
    divideGo_step 2000 4499 _ (hne 4500 (by omega))]
  rw [List.take_replicate, List.drop_replicate]
  rw [show min 2000 4500 = 2000 from rfl, show 4500 - 2000 = 2500 from rfl]
  rw [show (4499 : Nat) = 4498 + 1 from rfl,
    divideGo_step 2000 4498 _ (hne 2500 (by omega))]
  rw [List.take_replicate, List.drop_replicate]
  rw [show min 2000 2500 = 2000 from rfl, show 2500 - 2000 = 500 from rfl]
  rw [show (4498 : Nat) = 4497 + 1 from rfl,
    divideGo_step 2000 4497 _ (hne 500 (by omega))]
  rw [List.take_replicate, List.drop_replicate]
  rw [show min 2000 500 = 500 from rfl, show 500 - 2000 = 0 from rfl]
  rw [show List.replicate 0 (0 : Nat) = [] from rfl, divideGo_nil]
  simp only [List.map_cons, List.map_nil, List.length_replicate]

theorem divide_total_partition (l : List α) (n : Nat) (hn : 0 < n) :
    (divide l n).flatten = l ∧
    (∀ c ∈ divide l n, c.length ≤ n ∧ c ≠ []) ∧
    (∀ c ∈ (divide l n).dropLast, c.length = n) ∧
    (divide (List.replicate 4500 (0 : Nat)) 2000).map List.length =
      [2000, 2000, 500] := by
  have hne : n ≠ 0 := Nat.pos_iff_ne_zero.mp hn
  refine ⟨?_, ?_, ?_, divide_replicate_4500⟩
  · rw [divide, if_neg hne]
    exact divideGo_flatten n hn l.length l le_rfl
  · rw [divide, if_neg hne]
    exact divideGo_chunk_bounds n hn l.length l le_rfl
  · rw [divide, if_neg hne]
    exact divideGo_dropLast_full n hn l.length l le_rfl

theorem divide_total_partition_witness :
    0 < 2 ∧
    (divide [10, 20, 30, 40, 50] 2).flatten = [10, 20, 30, 40, 50] ∧
    (∀ c ∈ divide [10, 20, 30, 40, 50] 2, c.length ≤ 2 ∧ c ≠ []) ∧
    (∀ c ∈ (divide [10, 20, 30, 40, 50] 2).dropLast, c.length = 2) :=
  ⟨by decide,
    (divide_total_partition [10, 20, 30, 40, 50] 2 (by decide)).1,
    (divide_total_partition [10, 20, 30, 40, 50] 2 (by decide)).2.1,
    (divide_total_partition [10, 20, 30, 40, 50] 2 (by decide)).2.2.1⟩

/-! ## Pagination -/

/-- One entry of `offerMappingEntries`; `get_offer_ids` reads
`product.get("offer").get("shopSku")` from it. -/
structure OfferEntry where
  shopSku : String
deriving DecidableEq, Repr

/-- One page of the offer-mapping listing as seen through
`get_product_list`: `ok` abstracts whether `response.raise_for_status()`
passes (success status), `entries` is `result.offerMappingEntries`, and
`nextPageToken` is `result.paging.nextPageToken` (`""` for a falsy
token). -/
structure PageResponse where
  ok : Bool
  entries : List OfferEntry
  nextPageToken : String

/-- A remote listing endpoint: the response served for each page
token. -/
def Server := String → PageResponse

/-- `get_product_list` (lines 13-63): one GET of the listing endpooint;
`response.raise_for_status()` raises `HTTPError` on a non-success
status, modelled as `Except.error` carrying the failing page token. -/
def get_product_list (server : Server) (page : String) :
    Except String (List OfferEntry × String) :=
  let r := server page
  if r.ok then .ok (r.entries, r.nextPageToken) else .error page

/-- The `while True` pagination loop of `get_offer_ids` (lines 183-188)
with explicit fuel.  Returns the page tokens requested together with
`none` when the fuel runs out before the loop breaks, or the final
outcome: the accumulated `offerMappingEntries` of all pages, or the
propagated `HTTPError`. -/
def getOfferIdsLoop (server : Server) (page : String)
    (acc : List OfferEntry) :
    Nat → List String × Option (Except String (List OfferEntry))
  | 0 => ([], none)
  | fuel + 1 =>
    match get_product_list server page with
    | .error e => ([page], some (.error e))
    | .ok (entries, next) =>
      if next = "" then ([page], some (.ok (acc ++ entries)))
      else
        let res := getOfferIdsLoop server next (acc ++ entries) fuel
        (page :: res.1, res.2)

/-- `get_offer_ids` (lines 158-192): runs the pagination loop starting
from the empty page token, then maps every accumulated entry to its
`shopSku`. -/
def get_offer_ids (server : Server) (fuel : Nat) :
    Option (Except String (List String)) :=
  match (getOfferIdsLoop server "" [] fuel).2 with
  | none => none
  | some (.error e) => some (.error e)
  | some (.ok entries) => some (.ok (entries.map OfferEntry.shopSku))

/-- The page tokens requested by a run of `get_offer_ids`. -/
def visitedPages (server : Server) (fuel : Nat) : List String :=
  (getOfferIdsLoop server "" [] fuel).1

/-- If some requested page fails, the loop result is the propagated
error. -/
theorem getOfferIdsLoop_error (server : Server) :
    ∀ (fuel : Nat) (page : String) (acc : List OfferEntry),
      (∃ p ∈ (getOfferIdsLoop server page acc fuel).1, (server p).ok = false) →
      ∃ e, (getOfferIdsLoop server page acc fuel).2 = some (.error e) := by
  intro fuel
  induction fuel with
  | zero =>
    intro page acc h
    obtain ⟨p, hp, _⟩ := h
    exact absurd hp (List.not_mem_nil p)
  | succ fuel ih =>
    intro page acc h
    obtain ⟨p, hp, hfail⟩ := h
    by_cases hok : (server page).ok
    · simp only [getOfferIdsLoop, get_product_list, if_pos hok] at hp ⊢
      by_cases hnext : (server page).nextPageToken = ""
      · rw [if_pos hnext] at hp ⊢
        simp only [List.mem_singleton] at hp
        rw [hp, hok] at hfail
        simp at hfail
      · rw [if_neg hnext] at hp ⊢
        simp only [List.mem_cons] at hp
        rcases hp with hp | hp
        · rw [hp, hok] at hfail
          simp at hfail
        · exact ih ((server page).nextPageToken) (acc ++ (server page).entries)
            ⟨p, hp, hfail⟩
    · simp only [getOfferIdsLoop, get_product_list, if_neg hok]
      exact ⟨page, rfl⟩

/-- C7: if any page request of the pagination walk returns a non-success
status, `get_offer_ids` propagates the transport error to its caller and
returns no (partial) offer id list. -/
theorem get_offer_ids_error_no_partial (server : Server) (fuel : Nat)
    (h : ∃ p ∈ visitedPages server fuel, (server p).ok = false) :
    ∃ e, get_offer_ids server fuel = some (Except.error e) := by
  obtain ⟨e, he⟩ := getOfferIdsLoop_error server fuel "" [] h
  exact ⟨e, by rw [get_offer_ids, he]⟩

/-- A two-page endpoint whose second page answers with a failure
status. -/
def failingServer : Server := fun page =>
  if page = "" then ⟨true, [⟨"a1"⟩], "p2"⟩
  else ⟨false, [], ""⟩

theorem get_offer_ids_error_no_partial_witness :
    (∃ p ∈ visitedPages failingServer 5, (failingServer p).ok = false) ∧
    ∃ e, get_offer_ids failingServer 5 = some (Except.error e) :=
  ⟨by decide, get_offer_ids_error_no_partial failingServer 5 (by decide)⟩

/-- The request chain starting at `page` succeeds on every page and
reaches a falsy (empty) next-page token after exactly `k` further
hops. -/
def chainOk (server : Server) : String → Nat → Bool
  | page, 0 => (server page).ok && ((server page).nextPageToken == "")
  | page, k + 1 =>
    (server page).ok && ((server page).nextPageToken != "") &&
      chainOk server ((server page).nextPageToken) k

/-- The `offerMappingEntries` of every page of the chain, concatenated
in API return order (duplicates kept). -/
def chainEntries (server : Server) : String → Nat → List OfferEntry
  | page, 0 => (server page).entries
  | page, k + 1 =>
    (server page).entries ++
      chainEntries server ((server page).nextPageToken) k

/-- With enough fuel, a chain that reaches a falsy token makes the loop
stop and return every page's entries appended behind the accumulator. -/
theorem getOfferIdsLoop_terminates (server : Server) :
    ∀ (k : Nat) (page : String) (acc : List OfferEntry) (fuel : Nat),
      chainOk server page k = true → k < fuel →
      (getOfferIdsLoop server page acc fuel).2 =
        some (.ok (acc ++ chainEntries server page k)) := by
  intro k
  induction k with
  | zero =>
    intro page acc fuel hok hlt
    obtain ⟨fuel, rfl⟩ : ∃ f, fuel = f + 1 := ⟨fuel - 1, by omega⟩
    simp only [chainOk, Bool.and_eq_true, beq_iff_eq] at hok
    obtain ⟨hsrv, hnext⟩ := hok
    simp only [getOfferIdsLoop, get_product_list, if_pos hsrv, if_pos hnext]
    rfl
  | succ k ih =>
    intro page acc fuel hok hlt
    obtain ⟨fuel, rfl⟩ : ∃ f, fuel = f + 1 := ⟨fuel - 1, by omega⟩
    simp only [chainOk, Bool.and_eq_true, bne_iff_ne] at hok
    obtain ⟨⟨hsrv, hnext⟩, hchain⟩ := hok
    simp only [getOfferIdsLoop, get_product_list, if_pos hsrv, if_neg hnext]
    rw [ih ((server page).nextPageToken) (acc ++ (server page).entries) fuel
      hchain (by omega)]
    simp [chainEntries]

/-- C8: whenever the server eventually answers with a falsy next-page
token (after `k` successful pages), the pagination loop of
`get_offer_ids` terminates and returns the `shopSku` of every
accumulated `offerMappingEntries` entry of all pages, in API return
order and without deduplication. -/
theorem get_offer_ids_terminates_complete (server : Server) (k fuel : Nat)
    (hchain : chainOk server "" k = true) (hfuel : k < fuel) :
    get_offer_ids server fuel =
      some (Except.ok ((chainEntries server "" k).map OfferEntry.shopSku)) := by
  rw [get_offer_ids, getOfferIdsLoop_terminates server k "" [] fuel hchain hfuel]
  rfl

/-- A well-behaved three-page endpoint: the third page returns a falsy
next-page token; page two repeats an sku already seen on page one. -/
def pagedServer : Server := fun page =>
  if page = "" then ⟨true, [⟨"a1"⟩, ⟨"a2"⟩], "p2"⟩
  else if page = "p2" then ⟨true, [⟨"a2"⟩], "p3"⟩
  else if page = "p3" then ⟨true, [⟨"a3"⟩], ""⟩
  else ⟨false, [], ""⟩

theorem get_offer_ids_terminates_complete_witness :
    chainOk pagedServer "" 2 = true ∧ 2 < 9 ∧
    get_offer_ids pagedServer 9 =
      some (Except.ok ((chainEntries pagedServer "" 2).map OfferEntry.shopSku)) ∧
    (chainEntries pagedServer "" 2).map OfferEntry.shopSku =
      ["a1", "a2", "a2", "a3"] :=
  ⟨by decide, by decide,
    get_offer_ids_terminates_complete pagedServer 2 9 (by decide) (by decide),
    by decide⟩

/-! ## The orchestrator `main` -/

/-- An HTTP request issued by the program: a GET of a listing page, a
PUT of a stock chunk (`update_stocks`), or a POST of a price chunk
(`update_price`). -/
inductive ApiEvent where
  | fetchPage (campaign page : String)
  | putStocks (campaign : String) (chunk : List StockUpdate)
  | postPrices (campaign : String) (chunk : List PriceUpdate)
deriving DecidableEq, Repr

/-- Whether an event is a POST to the price-update endpoint. -/
def isPostPrices : ApiEvent → Bool
  | .postPrices _ _ => true
  | _ => false

/-- The requests issued by one channel's stock block of `main`
(lines 358-362 and 367-371): fetch all offer-id pages, build the stocks,
and PUT them in chunks of 2000.  The second component records whether
the block finished without an exception (a transport error, exhausted
fuel, or a `ValueError` in `create_stocks` aborts the `try` block of
`main`, so nothing after it runs).  Responses to the PUTs themselves are
not modelled. -/
def mainChannelStockEvents (remnants : List WatchRecord) (server : Server)
    (campaign warehouse date : String) (fuel : Nat) :
    List ApiEvent × Bool :=
  let run := getOfferIdsLoop server "" [] fuel
  let fetches := run.1.map (ApiEvent.fetchPage campaign)
  match run.2 with
  | none => (fetches, false)
  | some (.error _) => (fetches, false)
  | some (.ok entries) =>
    match create_stocks remnants (entries.map OfferEntry.shopSku)
        warehouse date with
    | none => (fetches, false)
    | some p =>
      (fetches ++ (divide p.1 2000).map (ApiEvent.putStocks campaign), true)

/-- The requests the body of `async def upload_prices` (lines 328-333)
would issue if it were executed: fetch the offer ids again, build the
prices, POST them in chunks of 500. -/
def uploadPricesEvents (remnants : List WatchRecord) (server : Server)
    (campaign : String) (fuel : Nat) : List ApiEvent :=
  let run := getOfferIdsLoop server "" [] fuel
  let fetches := run.1.map (ApiEvent.fetchPage campaign)
  match run.2 with
  | none => fetches
  | some (.error _) => fetches
  | some (.ok entries) =>
    match create_prices remnants (entries.map OfferEntry.shopSku) with
    | none => fetches
    | some prices =>
      fetches ++ (divide prices 500).map (ApiEvent.postPrices campaign)

/-- The requests issued by `main` (lines 347-379).  For each channel,
`main` fetches the offer ids, builds and PUTs the stock chunks, and then
calls the `async def upload_prices` WITHOUT awaiting it (lines 364 and
373; `main` is not itself async and the module never imports asyncio):
in Python this merely creates a coroutine object that is immediately
discarded, so the body of `upload_prices` — including every POST to the
price endpoint — never executes and contributes no request.  An
exception in the FBS block aborts the shared `try` block, so the DBS
block runs only if FBS completed. -/
def mainEvents (remnants : List WatchRecord) (serverF serverD : Server)
    (campaignF campaignD warehouseF warehouseD date : String)
    (fuel : Nat) : List ApiEvent :=
  let fbs := mainChannelStockEvents remnants serverF campaignF warehouseF
    date fuel
  if fbs.2 then
    fbs.1 ++ (mainChannelStockEvents remnants serverD campaignD warehouseD
      date fuel).1
  else fbs.1

/-- No event of a channel's stock block is a price POST. -/
theorem mainChannelStockEvents_no_prices (remnants : List WatchRecord)
    (server : Server) (campaign warehouse date : String) (fuel : Nat) :
    ∀ e ∈ (mainChannelStockEvents remnants server campaign warehouse
      date fuel).1, isPostPrices e = false := by
  intro e he
  rcases hrun : (getOfferIdsLoop server "" [] fuel).2 with _ | res
  · simp only [mainChannelStockEvents, hrun, List.mem_map] at he
    obtain ⟨p, _, rfl⟩ := he
    rfl
  · rcases res with err | entries
    · simp only [mainChannelStockEvents, hrun, List.mem_map] at he
      obtain ⟨p, _, rfl⟩ := he
      rfl
    · rcases hcs : create_stocks remnants (entries.map OfferEntry.shopSku)
          warehouse date with _ | p
      · simp only [mainChannelStockEvents, hrun, hcs, List.mem_map] at he
        obtain ⟨p, _, rfl⟩ := he
        rfl
      · simp only [mainChannelStockEvents, hrun, hcs, List.mem_append,
          List.mem_map] at he
        rcases he with he | he
        · obtain ⟨q, _, rfl⟩ := he
          rfl
        · obtain ⟨q, _, rfl⟩ := he
          rfl

/-- C3: `main` never issues a request to the price endpoint: because
`upload_prices` is called without being awaited, its coroutine never
runs, and no price batch is ever submitted — for any inventory, any
pair of servers, and any configuration. -/
theorem main_never_posts_prices (remnants : List WatchRecord)
    (serverF serverD : Server)
    (campaignF campaignD warehouseF warehouseD date : String) (fuel : Nat) :
    ∀ e ∈ mainEvents remnants serverF serverD campaignF campaignD
      warehouseF warehouseD date fuel, isPostPrices e = false := by
  intro e he
  rw [mainEvents] at he
  by_cases hfbs : (mainChannelStockEvents remnants serverF campaignF
      warehouseF date fuel).2
  · rw [if_pos hfbs, List.mem_append] at he
    rcases he with he | he
    · exact mainChannelStockEvents_no_prices remnants serverF campaignF
        warehouseF date fuel e he
    · exact mainChannelStockEvents_no_prices remnants serverD campaignD
        warehouseD date fuel e he
  · rw [if_neg hfbs] at he
    exact mainChannelStockEvents_no_prices remnants serverF campaignF
      warehouseF date fuel e he

theorem main_never_posts_prices_witness :
    ApiEvent.fetchPage "fbs" "" ∈
      mainEvents [⟨"a1", "4", "100"⟩] pagedServer pagedServer
        "fbs" "dbs" "wf" "wd" "d" 9 ∧
    isPostPrices (ApiEvent.fetchPage "fbs" "") = false :=
  ⟨by decide,
    main_never_posts_prices [⟨"a1", "4", "100"⟩] pagedServer pagedServer
      "fbs" "dbs" "wf" "wd" "d" 9 (ApiEvent.fetchPage "fbs" "") (by decide)⟩

/-- Had the coroutine been awaited, the same run would have posted a
price batch: the intended pipeline of the spec does reach the price
endpoint on this input, the shipped `main` does not. -/
theorem uploadPricesEvents_would_post :
    (uploadPricesEvents [⟨"a1", "4", "100"⟩] pagedServer "fbs" 9).filter
        isPostPrices =
      [ApiEvent.postPrices "fbs" [⟨"a1", ⟨100, "RUR"⟩⟩]] ∧
    ¬ ((mainEvents [⟨"a1", "4", "100"⟩] pagedServer pagedServer
        "fbs" "dbs" "wf" "wd" "d" 9).filter isPostPrices =
      [ApiEvent.postPrices "fbs" [⟨"a1", ⟨100, "RUR"⟩⟩]]) :=
  ⟨by decide, by decide⟩

/-! ## Duplicate inventory codes -/

/-- A code absent from the working set never appears among the emitted
skus nor in the leftover set. -/
theorem createStocksLoop_not_mem (remnants : List WatchRecord)
    (offer_ids : List String) (w d c : String) (us : List StockUpdate)
    (rem : List String) (hc : c ∉ offer_ids)
    (h : createStocksLoop remnants offer_ids w d = some (us, rem)) :
    (∀ u ∈ us, u.sku ≠ c) ∧ c ∉ rem := by
  have hperm := createStocksLoop_perm remnants offer_ids w d us rem h
  have hni : c ∉ us.map StockUpdate.sku ++ rem := fun hmem =>
    hc (hperm.mem_iff.mp hmem)
  rw [List.mem_append] at hni
  push_neg at hni
  obtain ⟨h1, h2⟩ := hni
  refine ⟨?_, h2⟩
  intro u hu hequ
  exact h1 (List.mem_map.mpr ⟨u, hu, hequ⟩)

/-- With a duplicate-free working set containing `c`, the updates whose
sku is `c` are determined by the first inventory record with code `c`:
no matching record leaves `c` in the working set with no update, and a
first matching record yields exactly one update built from it. -/
theorem createStocksLoop_filter_code (remnants : List WatchRecord)
    (offer_ids : List String) (w d c : String) (us : List StockUpdate)
    (rem : List String) (hnd : offer_ids.Nodup) (hc : c ∈ offer_ids)
    (h : createStocksLoop remnants offer_ids w d = some (us, rem)) :
    (remnants.find? (fun r => r.code == c) = none →
      us.filter (fun u => u.sku == c) = [] ∧ c ∈ rem) ∧
    (∀ r, remnants.find? (fun r => r.code == c) = some r →
      ∃ v, stockCount r.quantity = some v ∧
        us.filter (fun u => u.sku == c) = [⟨c, w, [⟨v, "FIT", d⟩]⟩] ∧
        c ∉ rem) := by
  induction remnants generalizing offer_ids us rem with
  | nil =>
    simp only [createStocksLoop, Option.some.injEq, Prod.mk.injEq] at h
    obtain ⟨h1, h2⟩ := h
    constructor
    · intro _
      exact ⟨by rw [← h1]; rfl, by rw [← h2]; exact hc⟩
    · intro r hr
      exact absurd hr (by simp)
  | cons watch rest ih =>
    simp only [createStocksLoop] at h
    by_cases hmem : watch.code ∈ offer_ids
    · rw [if_pos hmem] at h
      cases hq : stockCount watch.quantity with
      | none => simp [hq] at h
      | some v0 =>
        simp only [hq] at h
        cases hrec : createStocksLoop rest (offer_ids.erase watch.code) w d with
        | none => simp [hrec] at h
        | some p =>
          obtain ⟨us', rem'⟩ := p
          simp only [hrec, Option.some.injEq, Prod.mk.injEq] at h
          obtain ⟨h1, h2⟩ := h
          by_cases hwc : watch.code = c
          · have hfind : (watch :: rest).find? (fun r => r.code == c) =
                some watch :=
              List.find?_cons_of_pos rest (by simp [hwc])
            constructor
            · intro hnone
              rw [hfind] at hnone
              exact absurd hnone (by simp)
            · intro r hr
              rw [hfind, Option.some.injEq] at hr
              subst hr
              refine ⟨v0, hq, ?_, ?_⟩
              · have hcout : c ∉ offer_ids.erase watch.code := by
                  rw [hwc]
                  intro hcontra
                  exact ((hnd.mem_erase_iff).mp hcontra).1 rfl
                have hrest := createStocksLoop_not_mem rest
                  (offer_ids.erase watch.code) w d c us' rem' hcout hrec
                rw [← h1]
                rw [List.filter_cons_of_pos (by simp [hwc])]
                rw [List.filter_eq_nil_iff.mpr
                  (fun u hu => by simp [hrest.1 u hu])]
                rw [hwc]
              · have hcout : c ∉ offer_ids.erase watch.code := by
                  rw [hwc]
                  intro hcontra
                  exact ((hnd.mem_erase_iff).mp hcontra).1 rfl
                have hrest := createStocksLoop_not_mem rest
                  (offer_ids.erase watch.code) w d c us' rem' hcout hrec
                rw [← h2]
                exact hrest.2
          · have hfind : (watch :: rest).find? (fun r => r.code == c) =
                rest.find? (fun r => r.code == c) :=
              List.find?_cons_of_neg rest (by simp [hwc])
            have hcerase : c ∈ offer_ids.erase watch.code :=
              (hnd.mem_erase_iff).mpr ⟨fun hcontra => hwc hcontra.symm, hc⟩
            have hih := ih (offer_ids.erase watch.code) us' rem'
              (hnd.erase watch.code) hcerase hrec
            have hfilter : us.filter (fun u => u.sku == c) =
                us'.filter (fun u => u.sku == c) := by
              rw [← h1]
              exact List.filter_cons_of_neg (by simp [hwc])
            constructor
            · intro hnone
              rw [hfind] at hnone
              obtain ⟨hf, hin⟩ := hih.1 hnone
              exact ⟨by rw [hfilter]; exact hf, by rw [← h2]; exact hin⟩
            · intro r hr
              rw [hfind] at hr
              obtain ⟨v, hv, hf, hout⟩ := hih.2 r hr
              exact ⟨v, hv, by rw [hfilter]; exact hf,
                by rw [← h2]; exact hout⟩
    · rw [if_neg hmem] at h
      have hwc : watch.code ≠ c := fun hcontra => hmem (hcontra ▸ hc)
      have hfind : (watch :: rest).find? (fun r => r.code == c) =
          rest.find? (fun r => r.code == c) :=
        List.find?_cons_of_neg rest (by simp [hwc])
      have hih := ih offer_ids us rem hnd hc h
      rw [hfind]
      exact hih

/-- The ids of the built price updates are exactly the codes of the
matching inventory records, in order and with multiplicity. -/
theorem create_prices_map_id (remnants : List WatchRecord)
    (offer_ids : List String) (ps : List PriceUpdate)
    (h : create_prices remnants offer_ids = some ps) :
    ps.map PriceUpdate.id =
      (remnants.filter (fun r => decide (r.code ∈ offer_ids))).map
        WatchRecord.code := by
  induction remnants generalizing ps with
  | nil =>
    simp only [create_prices, Option.some.injEq] at h
    rw [← h]
    rfl
  | cons watch rest ih =>
    simp only [create_prices] at h
    by_cases hmem : watch.code ∈ offer_ids
    · rw [if_pos hmem] at h
      cases hv : pyInt (price_conversion watch.price) with
      | none => simp [hv] at h
      | some v =>
        simp only [hv, Option.map_eq_some'] at h
        obtain ⟨ps', hps', heq⟩ := h
        rw [← heq, List.filter_cons_of_pos (by simp [hmem])]
        simp only [List.map_cons]
        rw [ih ps' hps']
    · rw [if_neg hmem] at h
      rw [List.filter_cons_of_neg (by simp [hmem])]
      exact ih ps h

/-- C10 (amended: `offer_ids` duplicate-free): when several inventory
records share a code `c` present in the offer id list, `create_stocks`
emits exactly one stock update for `c`, built from the first such record
(later duplicates are skipped because `c` has been removed from the
working set), while `create_prices` emits one price update per matching
record, so the duplicated code yields duplicated price update ids. -/
theorem duplicate_codes_one_stock_many_prices
    (remnants : List WatchRecord) (offer_ids : List String)
    (w d c : String) (s : List StockUpdate) (rem : List String)
    (ps : List PriceUpdate) (hnd : offer_ids.Nodup) (hc : c ∈ offer_ids)
    (hdup : 2 ≤ (remnants.filter (fun r => r.code == c)).length)
    (hs : create_stocks remnants offer_ids w d = some (s, rem))
    (hp : create_prices remnants offer_ids = some ps) :
    (∃ r, remnants.find? (fun r => r.code == c) = some r ∧
      ∃ v, stockCount r.quantity = some v ∧
        s.filter (fun u => u.sku == c) = [⟨c, w, [⟨v, "FIT", d⟩]⟩]) ∧
    (ps.filter (fun p => p.id == c)).length =
      (remnants.filter (fun r => r.code == c)).length ∧
    2 ≤ (ps.filter (fun p => p.id == c)).length := by
  have hfindsome : ∃ r, remnants.find? (fun r => r.code == c) = some r := by
    have hne : remnants.filter (fun r => r.code == c) ≠ [] := by
      intro hcontra
      rw [hcontra] at hdup
      simp at hdup
    obtain ⟨x, hx⟩ := List.exists_mem_of_ne_nil _ hne
    obtain ⟨hxmem, hxpred⟩ := List.mem_filter.mp hx
    exact Option.isSome_iff_exists.mp
      (List.find?_isSome.mpr ⟨x, hxmem, hxpred⟩)
  obtain ⟨r0, hr0⟩ := hfindsome
  simp only [create_stocks, Option.map_eq_some'] at hs
  obtain ⟨⟨us, rem'⟩, hloop, heq⟩ := hs
  simp only [Prod.mk.injEq] at heq
  obtain ⟨hseq, hremeq⟩ := heq
  have hcode := createStocksLoop_filter_code remnants offer_ids w d c us rem'
    hnd hc hloop
  obtain ⟨v, hv, hfilter, hout⟩ := hcode.2 r0 hr0
  have hzero : (rem'.map (zeroStock w d)).filter (fun u => u.sku == c) = [] := by
    rw [List.filter_eq_nil_iff]
    intro u hu
    obtain ⟨id, hid, rfl⟩ := List.mem_map.mp hu
    simp only [sku_zeroStock, beq_iff_eq]
    intro hcontra
    exact hout (hcontra ▸ hid)
  refine ⟨⟨r0, hr0, v, hv, ?_⟩, ?_⟩
  · rw [← hseq, List.filter_append, hfilter, hzero]
    rfl
  · have hmap := create_prices_map_id remnants offer_ids ps hp
    have e1 : (ps.filter (fun p => p.id == c)).length =
        List.countP (fun p => p.id == c) ps :=
      (List.countP_eq_length_filter _ _).symm
    have e2 : List.countP (fun p => p.id == c) ps =
        List.countP (fun x => x == c) (ps.map PriceUpdate.id) := by
      rw [List.countP_map]
      rfl
    have e3 : List.countP (fun x => x == c)
          ((remnants.filter (fun r => decide (r.code ∈ offer_ids))).map
            WatchRecord.code) =
        List.countP (fun r => r.code == c)
          (remnants.filter (fun r => decide (r.code ∈ offer_ids))) := by
      rw [List.countP_map]
      rfl
    have e4 : List.countP (fun r => r.code == c)
          (remnants.filter (fun r => decide (r.code ∈ offer_ids))) =
        List.countP (fun r => r.code == c) remnants := by
      rw [List.countP_filter]
      apply List.countP_congr
      intro x hx
      constructor
      · intro hand
        exact (Bool.and_eq_true _ _ |>.mp hand).1
      · intro hpred
        have hxc : x.code = c := by simpa using hpred
        simp [hpred, hxc, hc]
    have e5 : List.countP (fun r => r.code == c) remnants =
        (remnants.filter (fun r => r.code == c)).length :=
      List.countP_eq_length_filter _ _
    have hlen : (ps.filter (fun p => p.id == c)).length =
        (remnants.filter (fun r => r.code == c)).length := by
      rw [e1, e2, hmap, e3, e4, e5]
    exact ⟨hlen, by omega⟩

theorem duplicate_codes_one_stock_many_prices_witness :
    (["A", "B"] : List String).Nodup ∧ "A" ∈ (["A", "B"] : List String) ∧
    2 ≤ (([⟨"A", "5", "7"⟩, ⟨"A", "6", "8"⟩] : List WatchRecord).filter
      (fun r => r.code == "A")).length ∧
    create_stocks [⟨"A", "5", "7"⟩, ⟨"A", "6", "8"⟩] ["A", "B"] "w" "d" =
      some ([⟨"A", "w", [⟨5, "FIT", "d"⟩]⟩, ⟨"B", "w", [⟨0, "FIT", "d"⟩]⟩], ["B"]) ∧
    create_prices [⟨"A", "5", "7"⟩, ⟨"A", "6", "8"⟩] ["A", "B"] =
      some [⟨"A", ⟨7, "RUR"⟩⟩, ⟨"A", ⟨8, "RUR"⟩⟩] ∧
    (∃ r, ([⟨"A", "5", "7"⟩, ⟨"A", "6", "8"⟩] : List WatchRecord).find?
        (fun r => r.code == "A") = some r ∧
      ∃ v, stockCount r.quantity = some v ∧
        ([⟨"A", "w", [⟨5, "FIT", "d"⟩]⟩, ⟨"B", "w", [⟨0, "FIT", "d"⟩]⟩]
            : List StockUpdate).filter (fun u => u.sku == "A") =
          [⟨"A", "w", [⟨v, "FIT", "d"⟩]⟩]) ∧
    (([⟨"A", ⟨7, "RUR"⟩⟩, ⟨"A", ⟨8, "RUR"⟩⟩] : List PriceUpdate).filter
        (fun p => p.id == "A")).length = 2 :=
  ⟨by decide, by decide, by decide, by decide, by decide,
    (duplicate_codes_one_stock_many_prices
      [⟨"A", "5", "7"⟩, ⟨"A", "6", "8"⟩] ["A", "B"] "w" "d" "A"
      [⟨"A", "w", [⟨5, "FIT", "d"⟩]⟩, ⟨"B", "w", [⟨0, "FIT", "d"⟩]⟩] ["B"]
      [⟨"A", ⟨7, "RUR"⟩⟩, ⟨"A", ⟨8, "RUR"⟩⟩]
      (by decide) (by decide) (by decide) (by decide) (by decide)).1,
    by decide⟩

/-- C10 as stated is false when the offer id list itself contains the
code twice: with records `("A","5")`, `("A","6")` and
`offer_ids = ["A", "A"]`, `create_stocks` emits two updates for `"A"`
(one per duplicate record), not exactly one. -/
theorem duplicate_codes_cex :
    create_stocks [⟨"A", "5", "7"⟩, ⟨"A", "6", "8"⟩] ["A", "A"] "w" "d" =
      some ([⟨"A", "w", [⟨5, "FIT", "d"⟩]⟩, ⟨"A", "w", [⟨6, "FIT", "d"⟩]⟩], []) ∧
    ¬ ((([⟨"A", "w", [⟨5, "FIT", "d"⟩]⟩, ⟨"A", "w", [⟨6, "FIT", "d"⟩]⟩]
          : List StockUpdate).filter (fun u => u.sku == "A")).length = 1) :=
  ⟨by decide, by decide⟩
